import Mathlib

/-!
Verification of the AWS-automations repository.

The development shallowly embeds the two scripts:
  * `glacier_to_standard.py` (Cold-Tier Migrator),
  * `generate_aws_profiles_sso_vpc.py` (Profile Provisioner).

Remote S3 / EC2 / config-file state is made explicit: listings, head-object
results and per-call outcomes are inputs, and each embedded operation returns
the sequence of remote calls it issues together with the updated state.
-/

/-! ## Strings: Python's `in` substring test -/

/-- `startsWithChars text pat` holds when `pat` is a prefix of `text`. -/
def startsWithChars : List Char → List Char → Bool
  | _, [] => true
  | [], _ :: _ => false
  | a :: as, b :: bs => a = b && startsWithChars as bs

/-- `containsChars text pat` holds when `pat` occurs contiguously in `text`. -/
def containsChars : List Char → List Char → Bool
  | text, pat =>
    if startsWithChars text pat then true
    else
      match text with
      | [] => false
      | _ :: rest => containsChars rest pat

/-- Python's `pat in s` substring test. -/
def strContains (s pat : String) : Bool := containsChars s.data pat.data

/-! ## Cold-Tier Migrator (`glacier_to_standard.py`): configuration -/

/-- `PART_SIZE = 500 * 1024 * 1024` (source line 9). -/
def PART_SIZE : Nat := 500 * 1024 * 1024

/-! ## Discovery phase (`get_glacier_objects`, lines 25-36) -/

/-- One entry of a `list_objects_v2` page: its `Key` and optional
`StorageClass` fields. -/
structure ListedObject where
  key : String
  storageClass : Option String
deriving DecidableEq

/-- `get_glacier_objects`: walk every page of the listing and collect the keys
whose `StorageClass` equals `"GLACIER"` (lines 30-33). -/
def get_glacier_objects (pages : List (List ListedObject)) : List String :=
  pages.flatten.filterMap
    (fun o => if o.storageClass = some "GLACIER" then some o.key else none)

/-! ## Head-object results -/

/-- Outcome of `s3.head_object` for one key: either the call raised, or it
returned an optional `Restore` header string and a `ContentLength`. -/
inductive HeadResult where
  | err
  | ok (restore : Option String) (contentLength : Nat)
deriving DecidableEq

/-- The substring tested on line 43. -/
def ongoingTrueTag : String := "ongoing-request=\"true\""

/-- The substring tested on lines 45 and 71. -/
def ongoingFalseTag : String := "ongoing-request=\"false\""

/-- `"Restore" in head and pat in head["Restore"]`: the `Restore` header is
present and contains `pat`. -/
def restoreContains (r : Option String) (pat : String) : Bool :=
  match r with
  | some s => strContains s pat
  | none => false

/-- The head result reports a completed (non-ongoing) restore, the test of
lines 45 and 71.  A raised `head_object` call reports nothing. -/
def headDone : HeadResult → Bool
  | .err => false
  | .ok r _ => restoreContains r ongoingFalseTag

/-- The head result reports an ongoing restore (test of line 43). -/
def headOngoing : HeadResult → Bool
  | .err => false
  | .ok r _ => restoreContains r ongoingTrueTag

/-- The `ContentLength` field of a successful head result. -/
def headSize : HeadResult → Nat
  | .err => 0
  | .ok _ n => n

/-! ## Restore initiation (`initiate_restore`, lines 39-58) -/

/-- What `initiate_restore` does for one key: skip with a log (ongoing or
already-restored), issue one `restore_object` call, or catch and log the
per-key error. -/
inductive RestoreAction where
  | skipOngoing
  | skipRestored
  | requestRestore (days : Nat) (tier : String)
  | logError
deriving DecidableEq

/-- The per-key body of `initiate_restore` (lines 41-58): the branch on the
`Restore` header decides between the two skips and the restore request with
`Days = 1` and `Tier = "Standard"`; an exception is caught and logged. -/
def initiate_restore_key : HeadResult → RestoreAction
  | .err => .logError
  | .ok r _ =>
    if restoreContains r ongoingTrueTag then .skipOngoing
    else if restoreContains r ongoingFalseTag then .skipRestored
    else .requestRestore 1 "Standard"

/-- `initiate_restore`: process every key of the batch in order; no branch
aborts the loop. -/
def initiate_restore (heads : String → HeadResult) (keys : List String) :
    List (String × RestoreAction) :=
  keys.map (fun k => (k, initiate_restore_key (heads k)))

/-! ## Restore polling (`wait_for_restore`, lines 61-82) -/

/-- Lookup in a Python dict, modelled as an insertion-ordered association
list. -/
def lookupKey {α : Type} : List (String × α) → String → Option α
  | [], _ => none
  | (k, v) :: rest, key => if k = key then some v else lookupKey rest key

/-- One sweep of the inner `for key in keys` loop (lines 66-76): a key already
in `restored` is skipped; otherwise its head result is fetched, and on a
completed restore the key is recorded with its `ContentLength`; a head error
is logged and the key is retried on the next sweep. -/
def poll_round (h : String → HeadResult) (restored : List (String × Nat)) :
    List String → List (String × Nat)
  | [] => restored
  | key :: rest =>
    if (lookupKey restored key).isSome then poll_round h restored rest
    else if headDone (h key) then
      poll_round h (restored ++ [(key, headSize (h key))]) rest
    else poll_round h restored rest

/-- The `while len(restored) < len(keys)` loop (lines 65-80), indexed by the
sweep number (`heads round` is the head-object oracle during sweep `round`)
and by fuel: the source loop has no cap, so running out of fuel returns
`none` (the loop is still going). -/
def wait_go (heads : Nat → String → HeadResult) (keys : List String) :
    Nat → Nat → List (String × Nat) → Option (List (String × Nat))
  | 0, _, _ => none
  | fuel + 1, round, restored =>
    if restored.length < keys.length then
      wait_go heads keys fuel (round + 1) (poll_round (heads round) restored keys)
    else some restored

/-- `wait_for_restore`, starting from an empty `restored` dict at sweep 0. -/
def wait_for_restore (heads : Nat → String → HeadResult) (keys : List String)
    (fuel : Nat) : Option (List (String × Nat)) :=
  wait_go heads keys fuel 0 []

/-! ## Remote-call outcomes and the action trace -/

/-- Per-key outcomes of the S3 calls issued by the transition phase:
whether `create_multipart_upload`, each `upload_part_copy` (by part number),
`complete_multipart_upload`, the single-shot `copy_object`, the
`list_object_versions` call and each `delete_object` (by version id)
succeed, and the `ETag` returned for each copied part. -/
structure S3Env where
  createOk : Bool
  partOk : Nat → Bool
  completeOk : Bool
  copyOk : Bool
  etag : Nat → String
  listVersionsOk : Bool
  deleteOk : String → Bool

/-- The remote calls the transition phase can issue, in the order they are
issued. -/
inductive S3Action where
  | createMultipart (key : String)
  | uploadPartCopy (key : String) (partNumber : Nat) (rangeStart rangeStop : Nat)
  | completeMultipart (key : String) (parts : List (String × Nat))
  | abortMultipart (key : String)
  | copyObject (key : String)
  | listVersions (pfx : String)
  | deleteVersion (key : String) (versionId : String)
deriving DecidableEq

/-! ## Multipart copy (`multipart_copy`, lines 85-124) -/

/-- `part_count = math.ceil(size / PART_SIZE)` (line 94), as exact ceiling
division. -/
def part_count (size : Nat) : Nat := (size + PART_SIZE - 1) / PART_SIZE

/-- The `for i in range(part_count)` loop (lines 97-110), from part index `i`
with `remaining` parts left: each iteration computes
`start = i * PART_SIZE`, `end = min(start + PART_SIZE - 1, size - 1)`, issues
one `upload_part_copy` with part number `i + 1`, and appends the returned
`ETag` with part number `i + 1` to the part list.  A failing call raises: it
is still
issued, but no tag is recorded and the loop stops (third component `false`). -/
def copyParts (env : S3Env) (key : String) (size : Nat) :
    Nat → Nat → List S3Action × List (String × Nat) × Bool
  | _, 0 => ([], [], true)
  | i, remaining + 1 =>
    let start := i * PART_SIZE
    let stop := min (start + PART_SIZE - 1) (size - 1)
    if env.partOk (i + 1) then
      match copyParts env key size (i + 1) remaining with
      | (acts, parts, ok) =>
        (S3Action.uploadPartCopy key (i + 1) start stop :: acts,
         (env.etag (i + 1), i + 1) :: parts, ok)
    else ([S3Action.uploadPartCopy key (i + 1) start stop], [], false)

/-- `multipart_copy` (lines 85-124): create the upload, copy the parts, and
complete with the ordered part list.  The whole body is wrapped in
`try/except`: every exception is caught inside the function (lines 119-124),
the in-flight upload is aborted best-effort, and the function RETURNS
NORMALLY in every case.  The boolean records whether the copy actually
completed; the caller in the source never sees it.  When
`create_multipart_upload` itself raises, the abort call references the
unbound `upload` variable and raises before reaching S3, swallowed by the
bare `except:`, so no abort call is issued. -/
def multipart_copy (env : S3Env) (key : String) (size : Nat) :
    List S3Action × Bool :=
  if env.createOk then
    let r := copyParts env key size 0 (part_count size)
    if r.2.2 then
      if env.completeOk then
        (S3Action.createMultipart key ::
          r.1 ++ [S3Action.completeMultipart key r.2.1], true)
      else
        (S3Action.createMultipart key ::
          r.1 ++ [S3Action.completeMultipart key r.2.1,
                  S3Action.abortMultipart key], false)
    else
      (S3Action.createMultipart key ::
        r.1 ++ [S3Action.abortMultipart key], false)
  else ([S3Action.createMultipart key], false)

/-! ## Version cleanup (`cleanup_glacier_versions`, lines 127-139) -/

/-- One object version of the bucket's version listing: `Key`, `VersionId`,
optional `StorageClass`, and the `IsLatest` flag. -/
structure S3Version where
  key : String
  versionId : String
  storageClass : Option String
  isLatest : Bool
deriving DecidableEq

/-- `s3.list_object_versions(Bucket=..., Prefix=key)` at line 130: the
versions whose key has `pfx` as a prefix (note: a PREFIX match, not an
exact-key match).  The source makes a SINGLE un-paginated call — unlike the
paginated `list_objects_v2` of the discovery phase — so at most one page of
`MaxKeys = 1000` entries is returned and `IsTruncated` is ignored: versions
beyond the first page are invisible to the code. -/
def list_object_versions (store : List S3Version) (pfx : String) :
    List S3Version :=
  (store.filter (fun v => startsWithChars v.key.data pfx.data)).take 1000

/-- The versions line 131-136 iterates over and deletes: not `IsLatest`, and
`StorageClass in ["GLACIER", "DEEP_ARCHIVE"]`. -/
def cleanupSelected (store : List S3Version) (key : String) : List S3Version :=
  (list_object_versions store key).filter
    (fun v => !v.isLatest &&
      (v.storageClass == some "GLACIER" || v.storageClass == some "DEEP_ARCHIVE"))

/-- `s3.delete_object(Bucket=..., Key=key, VersionId=versionId)`: removes the
version with exactly that key and version id; deleting a (key, version-id)
pair not in the store is a no-op. -/
def delete_object (store : List S3Version) (key versionId : String) :
    List S3Version :=
  store.filter (fun v => !(v.key == key && v.versionId == versionId))

/-- The delete loop of lines 131-137 inside the `try` of lines 129-139: one
`delete_object` per selected version, in listing order.  A failing delete
call is still issued, but its exception escapes the loop into the `except`
of line 138, so the remaining deletes for that key are never attempted and
the failed call removed nothing. -/
def runDeletes (env : S3Env) (key : String) :
    List S3Version → List S3Version → List S3Action × List S3Version
  | store, [] => ([], store)
  | store, v :: rest =>
    if env.deleteOk v.versionId then
      (S3Action.deleteVersion key v.versionId ::
        (runDeletes env key (delete_object store key v.versionId) rest).1,
       (runDeletes env key (delete_object store key v.versionId) rest).2)
    else ([S3Action.deleteVersion key v.versionId], store)

/-- `cleanup_glacier_versions` (lines 127-139): one version listing by prefix
(single page), then one `delete_object` per selected version — note each
delete passes `Key=key` (the migrated key), not the listed version's own
key.  The whole body sits in one `try/except`: a raised listing deletes
nothing, and a raised delete aborts the remaining deletes for the key.
Returns the issued calls and the resulting version store. -/
def cleanup_glacier_versions (env : S3Env) (store : List S3Version)
    (key : String) : List S3Action × List S3Version :=
  if env.listVersionsOk then
    (S3Action.listVersions key ::
       (runDeletes env key store (cleanupSelected store key)).1,
     (runDeletes env key store (cleanupSelected store key)).2)
  else ([S3Action.listVersions key], store)

/-! ## Transition phase (`transition_to_standard`, lines 142-161) -/

/-- The per-key body of `transition_to_standard` (lines 145-161).  Size over
`5 * 1024 * 1024 * 1024` takes the multipart path, otherwise a single
`copy_object`.  The `try` block covers the copy and the cleanup call, so a
raised `copy_object` skips the cleanup — but `multipart_copy` catches its own
exceptions and returns normally, so on the multipart path
`cleanup_glacier_versions` runs whether or not the copy succeeded. -/
def transition_key (env : S3Env) (store : List S3Version) (key : String)
    (size : Nat) : List S3Action × List S3Version :=
  if size > 5 * 1024 * 1024 * 1024 then
    ((multipart_copy env key size).1 ++ (cleanup_glacier_versions env store key).1,
     (cleanup_glacier_versions env store key).2)
  else
    if env.copyOk then
      (S3Action.copyObject key :: (cleanup_glacier_versions env store key).1,
       (cleanup_glacier_versions env store key).2)
    else ([S3Action.copyObject key], store)

/-! ## Profile Provisioner (`generate_aws_profiles_sso_vpc.py`) -/

/-- One record of `describe_vpc_endpoints()["VpcEndpoints"]`: its
`VpcEndpointType`, `ServiceName`, and the `DnsName` of each of its
`DnsEntries`. -/
structure VpcEndpoint where
  vpcEndpointType : String
  serviceName : String
  dnsNames : List String
deriving DecidableEq

/-- `services = ["s3", "ec2", "sts"]` (source line 24). -/
def services : List String := ["s3", "ec2", "sts"]

/-- Python dict assignment `d[k] = v` on an insertion-ordered association
list: update in place if the key exists, else append. -/
def dictSet {α : Type} : List (String × α) → String → α → List (String × α)
  | [], k, v => [(k, v)]
  | (k', v') :: rest, k, v =>
    if k' = k then (k, v) :: rest else (k', v') :: dictSet rest k v

/-- The inner `for svc in services` loop (lines 41-43): for each service
identifier whose dotted form `"." + svc + "."` occurs in the endpoint's
`ServiceName`, record the first `DnsEntries` entry's `DnsName`. -/
def apply_services (ep : VpcEndpoint) (acc : List (String × String)) :
    List String → List (String × String)
  | [] => acc
  | svc :: rest =>
    if strContains ep.serviceName ("." ++ svc ++ ".") then
      apply_services ep (dictSet acc svc (ep.dnsNames.headD "")) rest
    else apply_services ep acc rest

/-- The outer `for ep in response["VpcEndpoints"]` loop (lines 39-43): only
endpoints whose `VpcEndpointType` is `"Interface"` are considered. -/
def service_endpoints_go (svcs : List String) (acc : List (String × String)) :
    List VpcEndpoint → List (String × String)
  | [] => acc
  | ep :: rest =>
    if ep.vpcEndpointType = "Interface" then
      service_endpoints_go svcs (apply_services ep acc svcs) rest
    else service_endpoints_go svcs acc rest

/-- The `service_endpoints` dict built on lines 38-43, starting empty. -/
def service_endpoints (eps : List VpcEndpoint) (svcs : List String) :
    List (String × String) :=
  service_endpoints_go svcs [] eps

/-- A section of the configuration file: ordered key/value settings. -/
abbrev CfgSection := List (String × String)

/-- The configuration file: ordered named sections. -/
abbrev Config := List (String × CfgSection)

/-- `config.has_section`. -/
def hasSection (cfg : Config) (name : String) : Bool :=
  cfg.any (fun s => s.1 == name)

/-- `config.add_section`: a new empty section at the end. -/
def add_section (cfg : Config) (name : String) : Config := cfg ++ [(name, [])]

/-- `config.set(section, key, value)`: overwrite or append the key in the
named section; other sections are untouched. -/
def cfgSet : Config → String → String → String → Config
  | [], _, _, _ => []
  | (n, sec) :: rest, name, key, value =>
    if n = name then (n, dictSet sec key value) :: cfgSet rest name key value
    else (n, sec) :: cfgSet rest name key value

/-- The static per-profile federation parameters of `sso_info`
(lines 7-22). -/
structure SsoProfile where
  sso_start_url : String
  sso_region : String
  sso_account_id : String
  sso_role_name : String
  region : String
deriving DecidableEq

/-- The body of the `for profile in profile_names` loop (lines 31-59):
discover the service endpoints, ensure the section `"profile " + name`
exists, set the six static keys, then set one key per discovered service in
dict-insertion order. -/
def provision_profile (cfg : Config) (name : String) (info : SsoProfile)
    (eps : List VpcEndpoint) : Config :=
  let se := service_endpoints eps services
  let sec := "profile " ++ name
  let cfg1 := if hasSection cfg sec then cfg else add_section cfg sec
  let cfg2 := cfgSet cfg1 sec "sso_start_url" info.sso_start_url
  let cfg3 := cfgSet cfg2 sec "sso_region" info.sso_region
  let cfg4 := cfgSet cfg3 sec "sso_account_id" info.sso_account_id
  let cfg5 := cfgSet cfg4 sec "sso_role_name" info.sso_role_name
  let cfg6 := cfgSet cfg5 sec "region" info.region
  let cfg7 := cfgSet cfg6 sec "output" "json"
  se.foldl (fun c p => cfgSet c sec p.1 ("\n    endpoint_url = https://" ++ p.2)) cfg7

/-- The whole run (lines 31-63): fold the per-profile body over the static
profile list, starting from the configuration file read at startup; the
result is what line 63 writes back. -/
def run_provisioner (cfg : Config) (names : List String)
    (info : String → SsoProfile) (eps : String → List VpcEndpoint) : Config :=
  names.foldl (fun c p => provision_profile c p (info p) (eps p)) cfg

/-! ## Specification-side definitions -/

/-- Sweep `r` is the first at which key `k`'s head result reports a completed
restore. -/
def firstDoneAt (heads : Nat → String → HeadResult) (k : String) (r : Nat) : Prop :=
  headDone (heads r k) = true ∧ ∀ q, q < r → headDone (heads q k) = false

/-- An endpoint matches a service identifier when its type is `"Interface"`
and its service name contains the dotted identifier. -/
def matchesSvc (ep : VpcEndpoint) (svc : String) : Bool :=
  (ep.vpcEndpointType == "Interface") &&
    strContains ep.serviceName ("." ++ svc ++ ".")

/-- The last endpoint of the list matching the service identifier, when one
exists. -/
def lastMatch (key : String) : List VpcEndpoint → Option VpcEndpoint
  | [] => none
  | ep :: rest =>
    match lastMatch key rest with
    | some x => some x
    | none => if matchesSvc ep key then some ep else none

/-- The configuration file holds the section for the named profile with all
six static settings at that profile's static values. -/
def staticKeysSet (cfg : Config) (name : String) (info : SsoProfile) : Prop :=
  ∃ sec, lookupKey cfg ("profile " ++ name) = some sec ∧
    lookupKey sec "sso_start_url" = some info.sso_start_url ∧
    lookupKey sec "sso_region" = some info.sso_region ∧
    lookupKey sec "sso_account_id" = some info.sso_account_id ∧
    lookupKey sec "sso_role_name" = some info.sso_role_name ∧
    lookupKey sec "region" = some info.region ∧
    lookupKey sec "output" = some "json"

/-- The loop invariant of `wait_for_restore`: the keys recorded so far are
distinct, and a key maps to `v` exactly when it is a candidate whose first
completed sweep lies strictly before the current one and `v` is the size
captured there. -/
def InvW (heads : Nat → String → HeadResult) (keys : List String) (round : Nat)
    (restored : List (String × Nat)) : Prop :=
  (restored.map Prod.fst).Nodup ∧
  ∀ key v, lookupKey restored key = some v ↔
    (key ∈ keys ∧ ∃ r, r < round ∧ firstDoneAt heads key r ∧
      v = headSize (heads r key))

/-! ## Concrete inputs used by witnesses and counterexamples -/

/-- Call outcomes where the first `upload_part_copy` fails and everything
else succeeds. -/
def envFailPart : S3Env :=
  ⟨true, fun _ => false, true, true, fun _ => "", true, fun _ => true⟩

/-- Call outcomes where every call succeeds. -/
def envAllOk : S3Env :=
  ⟨true, fun _ => true, true, true, fun _ => "e", true, fun _ => true⟩

/-- Call outcomes where only the `delete_object` of version id `"u1"`
fails. -/
def envDelFail : S3Env :=
  ⟨true, fun _ => true, true, true, fun _ => "e", true, fun vid => !(vid == "u1")⟩

/-- Call outcomes where only the `delete_object` of version id `"w1"`
fails. -/
def envDelFailDA : S3Env :=
  ⟨true, fun _ => true, true, true, fun _ => "e", true, fun vid => !(vid == "w1")⟩

/-- A versioned bucket holding key `"k"`: the current standard version and
two non-current cold versions. -/
def storeFail : List S3Version :=
  [⟨"k", "u0", some "STANDARD", true⟩, ⟨"k", "u1", some "GLACIER", false⟩,
   ⟨"k", "u2", some "GLACIER", false⟩]

/-- A versioned bucket holding key `"big"`: the current standard version and
one non-current cold version. -/
def storeBig : List S3Version :=
  [⟨"big", "v0", some "STANDARD", true⟩, ⟨"big", "v1", some "GLACIER", false⟩]

/-- A versioned bucket with a current version of `"k"`, a cold and a standard
old version of `"k"`, a cold old version of the unrelated `"other"`, and a
cold old version of `"kx"`, whose key has `"k"` as a proper prefix. -/
def storeMix : List S3Version :=
  [⟨"k", "u0", some "STANDARD", true⟩, ⟨"k", "u1", some "GLACIER", false⟩,
   ⟨"k", "u2", some "STANDARD", false⟩, ⟨"other", "u3", some "GLACIER", false⟩,
   ⟨"kx", "u4", some "GLACIER", false⟩]

/-- A versioned bucket holding key `"d"` with a non-current deep-archive
version. -/
def storeDA : List S3Version :=
  [⟨"d", "w0", some "STANDARD", true⟩, ⟨"d", "w1", some "DEEP_ARCHIVE", false⟩]

/-- A head-object oracle: every key reports no `Restore` header. -/
def headsNone : String → HeadResult := fun _ => HeadResult.ok none 3

/-- A per-sweep head-object oracle: every key reports a completed restore of
7 bytes from sweep 0 on. -/
def headsDone : Nat → String → HeadResult :=
  fun _ _ => HeadResult.ok (some "ongoing-request=\"false\", expiry-date=\"x\"") 7

/-- An interface endpoint whose service name is the bare identifier, with no
surrounding dots. -/
def epBare : VpcEndpoint := ⟨"Interface", "s3", ["h"]⟩

/-- An interface endpoint whose service name contains `".s3."`. -/
def epDotted : VpcEndpoint := ⟨"Interface", "com.amazonaws.us-east-1.s3.x", ["h1"]⟩

/-- A second interface endpoint matching `"s3"`, with a different hostname. -/
def epDotted2 : VpcEndpoint := ⟨"Interface", "y.s3.z", ["h2"]⟩

/-- Static federation parameters used by the provisioner witnesses. -/
def infoW : SsoProfile := ⟨"https://sso.example/start", "us-east-1", "123", "Admin", "us-east-1"⟩

/-- A pre-existing configuration file with one unrelated section. -/
def cfgW : Config := [("keep", [("a", "b")])]

/-! # Helper lemmas -/

theorem startsWithChars_self (l : List Char) : startsWithChars l l = true := by
  induction l with
  | nil => rfl
  | cons a as ih => simp [startsWithChars, ih]

theorem lookupKey_append_isSome {α : Type} (l l₂ : List (String × α))
    (key : String) (v : α) (h : lookupKey l key = some v) :
    lookupKey (l ++ l₂) key = some v := by
  induction l with
  | nil => simp [lookupKey] at h
  | cons p rest ih =>
    obtain ⟨k, w⟩ := p
    by_cases hk : k = key
    · simpa [lookupKey, hk] using h
    · rw [List.cons_append]
      simp only [lookupKey, if_neg hk] at h ⊢
      exact ih h

theorem lookupKey_append_none {α : Type} (l l₂ : List (String × α))
    (key : String) (h : lookupKey l key = none) :
    lookupKey (l ++ l₂) key = lookupKey l₂ key := by
  induction l with
  | nil => rfl
  | cons p rest ih =>
    obtain ⟨k, w⟩ := p
    by_cases hk : k = key
    · simp [lookupKey, hk] at h
    · rw [List.cons_append]
      simp only [lookupKey, if_neg hk] at h ⊢
      exact ih h

theorem lookupKey_none_iff {α : Type} (l : List (String × α)) (key : String) :
    lookupKey l key = none ↔ key ∉ l.map Prod.fst := by
  induction l with
  | nil => simp [lookupKey]
  | cons p rest ih =>
    obtain ⟨k, w⟩ := p
    by_cases hk : k = key
    · simp [lookupKey, hk]
    · simp only [lookupKey, if_neg hk, ih, List.map_cons, List.mem_cons]
      constructor
      · rintro hn (h1 | h2)
        · exact hk h1.symm
        · exact hn h2
      · intro hn h2
        exact hn (Or.inr h2)

theorem lookupKey_isSome_iff {α : Type} (l : List (String × α)) (key : String) :
    (lookupKey l key).isSome = true ↔ key ∈ l.map Prod.fst := by
  rcases h : lookupKey l key with _ | v
  · rw [lookupKey_none_iff] at h
    simp [h]
  · simp only [Option.isSome_some, true_iff]
    by_contra hm
    rw [← lookupKey_none_iff] at hm
    rw [h] at hm
    exact Option.some_ne_none v hm

theorem delete_object_mem (store : List S3Version) (key versionId : String)
    (v : S3Version) :
    v ∈ delete_object store key versionId ↔
      v ∈ store ∧ ¬(v.key = key ∧ v.versionId = versionId) := by
  simp only [delete_object, List.mem_filter, Bool.not_eq_true',
    Bool.and_eq_false_iff, beq_eq_false_iff_ne, ne_eq]
  tauto

theorem runDeletes_mem_all_ok (env : S3Env) (key : String) :
    ∀ (L : List S3Version), (∀ w ∈ L, env.deleteOk w.versionId = true) →
      ∀ (store : List S3Version) (v : S3Version),
        v ∈ (runDeletes env key store L).2 ↔
          v ∈ store ∧ ∀ w ∈ L, ¬(v.key = key ∧ v.versionId = w.versionId) := by
  intro L
  induction L with
  | nil => intro _ store v; simp [runDeletes]
  | cons w rest ih =>
    intro hok store v
    rw [runDeletes, if_pos (hok w (List.mem_cons_self w rest))]
    dsimp only
    rw [ih (fun u hu => hok u (List.mem_cons_of_mem w hu)) _ v, delete_object_mem]
    constructor
    · rintro ⟨⟨hv, hw⟩, hrest⟩
      refine ⟨hv, ?_⟩
      intro x hx
      rcases List.mem_cons.mp hx with hx | hx
      · exact hx ▸ hw
      · exact hrest x hx
    · rintro ⟨hv, hall⟩
      exact ⟨⟨hv, hall w (List.mem_cons_self w rest)⟩,
        fun x hx => hall x (List.mem_cons_of_mem w hx)⟩

theorem runDeletes_subset (env : S3Env) (key : String) :
    ∀ (L store : List S3Version) (v : S3Version),
      v ∈ (runDeletes env key store L).2 → v ∈ store := by
  intro L
  induction L with
  | nil => intro store v h; exact h
  | cons w rest ih =>
    intro store v h
    rw [runDeletes] at h
    by_cases hd : env.deleteOk w.versionId = true
    · rw [if_pos hd] at h
      dsimp only at h
      exact ((delete_object_mem _ _ _ _).mp (ih _ v h)).1
    · rw [if_neg hd] at h
      exact h

theorem runDeletes_mem_preserved (env : S3Env) (key : String) :
    ∀ (L store : List S3Version) (v : S3Version),
      v ∈ store → (∀ w ∈ L, ¬(v.key = key ∧ v.versionId = w.versionId)) →
      v ∈ (runDeletes env key store L).2 := by
  intro L
  induction L with
  | nil => intro store v hv _; exact hv
  | cons w rest ih =>
    intro store v hv hall
    rw [runDeletes]
    by_cases hd : env.deleteOk w.versionId = true
    · rw [if_pos hd]
      dsimp only
      apply ih _ v
      · exact (delete_object_mem _ _ _ _).mpr
          ⟨hv, hall w (List.mem_cons_self w rest)⟩
      · exact fun x hx => hall x (List.mem_cons_of_mem w hx)
    · rw [if_neg hd]
      exact hv

theorem list_object_versions_fits (store : List S3Version) (pfx : String)
    (h : (store.filter (fun v => startsWithChars v.key.data pfx.data)).length ≤ 1000) :
    list_object_versions store pfx =
      store.filter (fun v => startsWithChars v.key.data pfx.data) := by
  rw [list_object_versions]
  exact List.take_of_length_le h

theorem cleanupSelected_sub (store : List S3Version) (key : String)
    (w : S3Version) (hw : w ∈ cleanupSelected store key) :
    w ∈ store ∧ startsWithChars w.key.data key.data = true ∧
      w.isLatest = false ∧
      (w.storageClass = some "GLACIER" ∨ w.storageClass = some "DEEP_ARCHIVE") := by
  simp only [cleanupSelected, list_object_versions, List.mem_filter,
    Bool.and_eq_true, Bool.or_eq_true, Bool.not_eq_true', beq_iff_eq] at hw
  obtain ⟨h1, h2⟩ := hw
  have h3 := List.mem_of_mem_take h1
  rw [List.mem_filter] at h3
  exact ⟨h3.1, h3.2, h2⟩

theorem cleanupSelected_mem (store : List S3Version) (key : String)
    (hfits : (store.filter (fun v => startsWithChars v.key.data key.data)).length ≤ 1000)
    (v : S3Version) :
    v ∈ cleanupSelected store key ↔
      v ∈ store ∧ startsWithChars v.key.data key.data = true ∧
        v.isLatest = false ∧
        (v.storageClass = some "GLACIER" ∨ v.storageClass = some "DEEP_ARCHIVE") := by
  rw [cleanupSelected, list_object_versions_fits store key hfits]
  simp only [List.mem_filter, Bool.and_eq_true, Bool.or_eq_true,
    Bool.not_eq_true', beq_iff_eq]
  tauto

theorem cleanup_mem_iff (env : S3Env) (store : List S3Version) (key : String)
    (hU : (store.map S3Version.versionId).Nodup)
    (hlist : env.listVersionsOk = true)
    (hdel : ∀ w ∈ cleanupSelected store key, env.deleteOk w.versionId = true)
    (hfits : (store.filter (fun v => startsWithChars v.key.data key.data)).length ≤ 1000)
    (v : S3Version) :
    v ∈ (cleanup_glacier_versions env store key).2 ↔
      v ∈ store ∧ ¬(v.key = key ∧ v.isLatest = false ∧
        (v.storageClass = some "GLACIER" ∨ v.storageClass = some "DEEP_ARCHIVE")) := by
  rw [cleanup_glacier_versions, if_pos hlist]
  dsimp only
  rw [runDeletes_mem_all_ok env key _ hdel store v]
  constructor
  · rintro ⟨hv, hall⟩
    refine ⟨hv, ?_⟩
    rintro ⟨hk, hl, hc⟩
    have hsel : v ∈ cleanupSelected store key := by
      rw [cleanupSelected_mem store key hfits]
      exact ⟨hv, by rw [hk]; exact startsWithChars_self _, hl, hc⟩
    exact hall v hsel ⟨hk, rfl⟩
  · rintro ⟨hv, hng⟩
    refine ⟨hv, ?_⟩
    rintro w hw ⟨hk, hvid⟩
    have hwsel := cleanupSelected_sub store key w hw
    have hvw : v = w :=
      List.inj_on_of_nodup_map hU hv hwsel.1 hvid
    apply hng
    refine ⟨hk, ?_, ?_⟩
    · rw [hvw]; exact hwsel.2.2.1
    · rw [hvw]; exact hwsel.2.2.2

theorem cleanup_safety (env : S3Env) (store : List S3Version) (key : String)
    (hU : (store.map S3Version.versionId).Nodup) (v : S3Version) :
    (v ∈ (cleanup_glacier_versions env store key).2 → v ∈ store) ∧
    (v ∈ store →
      ¬(v.key = key ∧ v.isLatest = false ∧
        (v.storageClass = some "GLACIER" ∨ v.storageClass = some "DEEP_ARCHIVE")) →
      v ∈ (cleanup_glacier_versions env store key).2) := by
  rw [cleanup_glacier_versions]
  by_cases hlist : env.listVersionsOk = true
  · rw [if_pos hlist]
    dsimp only
    constructor
    · exact runDeletes_subset env key _ store v
    · intro hv hng
      apply runDeletes_mem_preserved env key _ store v hv
      rintro w hw ⟨hk, hvid⟩
      have hwsel := cleanupSelected_sub store key w hw
      have hvw : v = w :=
        List.inj_on_of_nodup_map hU hv hwsel.1 hvid
      apply hng
      refine ⟨hk, ?_, ?_⟩
      · rw [hvw]; exact hwsel.2.2.1
      · rw [hvw]; exact hwsel.2.2.2
  · rw [if_neg hlist]
    exact ⟨fun h => h, fun hv _ => hv⟩

theorem multipart_copy_head (env : S3Env) (key : String) (size : Nat) :
    (multipart_copy env key size).1.head? = some (S3Action.createMultipart key) := by
  unfold multipart_copy
  by_cases h1 : env.createOk
  · by_cases h2 : (copyParts env key size 0 (part_count size)).2.2
    · by_cases h3 : env.completeOk <;> simp [h1, h2, h3]
    · simp [h1, h2]
  · simp [h1]

/-! # Claim theorems: Cold-Tier Migrator -/

/-- C1.  The claim states that version cleanup runs if and only if the copy
succeeded.  This holds for the single-call path, but `multipart_copy` catches
every exception internally and returns normally, so on the multipart path
`transition_to_standard` reaches `cleanup_glacier_versions` even when the
copy failed.  Here the first `upload_part_copy` of a 5 GiB + 1 object fails
(so the copy did not complete and the upload is aborted), yet the cold
version `"v1"` of the key is still enumerated and deleted. -/
theorem transition_runs_cleanup_after_failed_multipart_copy :
    (multipart_copy envFailPart "big" (5 * 1024 * 1024 * 1024 + 1)).2 = false ∧
    S3Action.abortMultipart "big" ∈
      (transition_key envFailPart storeBig "big" (5 * 1024 * 1024 * 1024 + 1)).1 ∧
    S3Action.deleteVersion "big" "v1" ∈
      (transition_key envFailPart storeBig "big" (5 * 1024 * 1024 * 1024 + 1)).1 ∧
    (transition_key envFailPart storeBig "big" (5 * 1024 * 1024 * 1024 + 1)).2 =
      [⟨"big", "v0", some "STANDARD", true⟩] := by
  decide

/-- C3.  An object of size at most `5 * 1024 * 1024 * 1024` bytes (5 GiB,
inclusive) takes the single-call `copy_object` path, and any strictly larger
object takes the multipart path, whatever the call outcomes and version
store. -/
theorem transition_size_threshold (env : S3Env) (store : List S3Version)
    (key : String) (size : Nat) :
    (size ≤ 5 * 1024 * 1024 * 1024 →
      (transition_key env store key size).1.head? =
        some (S3Action.copyObject key)) ∧
    (5 * 1024 * 1024 * 1024 < size →
      (transition_key env store key size).1.head? =
        some (S3Action.createMultipart key)) := by
  constructor
  · intro h
    have hx : ¬ size > 5 * 1024 * 1024 * 1024 := by omega
    unfold transition_key
    rw [if_neg hx]
    by_cases hc : env.copyOk <;> simp [hc]
  · intro h
    unfold transition_key
    rw [if_pos h]
    have hhd := multipart_copy_head env key size
    rcases hmp : (multipart_copy env key size).1 with _ | ⟨a, tl⟩
    · rw [hmp] at hhd
      simp at hhd
    · rw [hmp] at hhd
      simp only [List.head?_cons, Option.some_inj] at hhd
      simp [hhd]

/-- Witness for C3: exactly 5 GiB goes through `copy_object`, one byte more
through `create_multipart_upload`. -/
theorem transition_size_threshold_witness :
    5 * 1024 * 1024 * 1024 ≤ 5 * 1024 * 1024 * 1024 ∧
    (transition_key envAllOk [] "k" (5 * 1024 * 1024 * 1024)).1.head? =
      some (S3Action.copyObject "k") ∧
    (transition_key envAllOk [] "k" (5 * 1024 * 1024 * 1024 + 1)).1.head? =
      some (S3Action.createMultipart "k") :=
  ⟨by decide,
   (transition_size_threshold envAllOk [] "k" (5 * 1024 * 1024 * 1024)).1 (by decide),
   (transition_size_threshold envAllOk [] "k" (5 * 1024 * 1024 * 1024 + 1)).2 (by decide)⟩

/-- Counterexample to C2 as stated.  The claim asserts cleanup deletes
exactly the non-current cold versions of the migrated key, but in the source
any failing `delete_object` raises into the `except` of line 138 and aborts
the remaining deletes: here the delete of version `"u1"` fails, so the
non-current GLACIER version `"u2"` of key `"k"` — which the claim says is
deleted — survives, even though its delete was due next. -/
theorem cleanup_exactness_cex :
    (⟨"k", "u2", some "GLACIER", false⟩ : S3Version) ∈ storeFail ∧
    (⟨"k", "u2", some "GLACIER", false⟩ : S3Version).isLatest = false ∧
    (⟨"k", "u2", some "GLACIER", false⟩ : S3Version).storageClass =
      some "GLACIER" ∧
    S3Action.deleteVersion "k" "u1" ∈
      (cleanup_glacier_versions envDelFail storeFail "k").1 ∧
    (⟨"k", "u2", some "GLACIER", false⟩ : S3Version) ∈
      (cleanup_glacier_versions envDelFail storeFail "k").2 := by
  decide

/-- C2 (amended).  Version cleanup for a migrated key never removes anything
except non-current versions of that key whose storage class is `GLACIER` or
`DEEP_ARCHIVE` — the current version, non-cold old versions, and other keys'
versions always survive, whatever calls fail.  It deletes exactly that set
whenever the single version-listing call covers the whole listing (at most
1000 prefix-matching versions) and the listing and every issued delete
succeed.  The version-id hypothesis states ids are distinct across the
listing, as they are in S3. -/
theorem cleanup_glacier_versions_frame (env : S3Env) (store : List S3Version)
    (key : String) (hU : (store.map S3Version.versionId).Nodup)
    (v : S3Version) :
    ((v ∈ (cleanup_glacier_versions env store key).2 → v ∈ store) ∧
     (v ∈ store →
       ¬(v.key = key ∧ v.isLatest = false ∧
         (v.storageClass = some "GLACIER" ∨ v.storageClass = some "DEEP_ARCHIVE")) →
       v ∈ (cleanup_glacier_versions env store key).2)) ∧
    (env.listVersionsOk = true →
     (∀ w ∈ cleanupSelected store key, env.deleteOk w.versionId = true) →
     (store.filter (fun w => startsWithChars w.key.data key.data)).length ≤ 1000 →
     (v ∈ (cleanup_glacier_versions env store key).2 ↔
       v ∈ store ∧ ¬(v.key = key ∧ v.isLatest = false ∧
         (v.storageClass = some "GLACIER" ∨ v.storageClass = some "DEEP_ARCHIVE")))) :=
  ⟨cleanup_safety env store key hU v,
   fun hlist hdel hfits => cleanup_mem_iff env store key hU hlist hdel hfits v⟩

/-- Witness for C2 (amended): in `storeMix` with every call succeeding, the
cold old version of key `"kx"` — whose name merely has the migrated key
`"k"` as a prefix — survives the cleanup of `"k"`. -/
theorem cleanup_glacier_versions_frame_witness :
    (storeMix.map S3Version.versionId).Nodup ∧
    ((⟨"kx", "u4", some "GLACIER", false⟩ : S3Version) ∈
        (cleanup_glacier_versions envAllOk storeMix "k").2 ↔
      (⟨"kx", "u4", some "GLACIER", false⟩ : S3Version) ∈ storeMix ∧
        ¬((⟨"kx", "u4", some "GLACIER", false⟩ : S3Version).key = "k" ∧
          (⟨"kx", "u4", some "GLACIER", false⟩ : S3Version).isLatest = false ∧
          ((⟨"kx", "u4", some "GLACIER", false⟩ : S3Version).storageClass = some "GLACIER" ∨
           (⟨"kx", "u4", some "GLACIER", false⟩ : S3Version).storageClass = some "DEEP_ARCHIVE"))) :=
  ⟨by decide,
   (cleanup_glacier_versions_frame envAllOk storeMix "k" (by decide) _).2
     rfl (by decide) (by decide)⟩

/-- C6.  Per candidate key, restore initiation: an ongoing restore is skipped,
a completed restore is skipped, a head-object error is caught and logged, and
otherwise exactly one restore request with `Days = 1` at tier `"Standard"` is
issued; every key of the batch is processed regardless. -/
theorem initiate_restore_spec (heads : String → HeadResult) (keys : List String)
    (k : String) (hk : k ∈ keys) :
    (k, initiate_restore_key (heads k)) ∈ initiate_restore heads keys ∧
    (initiate_restore heads keys).length = keys.length ∧
    (headOngoing (heads k) = true →
      initiate_restore_key (heads k) = RestoreAction.skipOngoing) ∧
    (headOngoing (heads k) = false → headDone (heads k) = true →
      initiate_restore_key (heads k) = RestoreAction.skipRestored) ∧
    (heads k = HeadResult.err →
      initiate_restore_key (heads k) = RestoreAction.logError) ∧
    (heads k ≠ HeadResult.err → headOngoing (heads k) = false →
      headDone (heads k) = false →
      initiate_restore_key (heads k) = RestoreAction.requestRestore 1 "Standard") := by
  refine ⟨?_, ?_, ?_, ?_, ?_, ?_⟩
  · exact List.mem_map_of_mem (fun k => (k, initiate_restore_key (heads k))) hk
  · exact List.length_map keys _
  · intro ho
    cases h : heads k with
    | err => rw [h] at ho; simp [headOngoing] at ho
    | ok r n =>
      rw [h] at ho
      simp only [headOngoing] at ho
      simp [initiate_restore_key, ho]
  · intro ho hd
    cases h : heads k with
    | err => rw [h] at hd; simp [headDone] at hd
    | ok r n =>
      rw [h] at ho hd
      simp only [headOngoing] at ho
      simp only [headDone] at hd
      simp [initiate_restore_key, ho, hd]
  · intro he
    rw [he]
    rfl
  · intro he ho hd
    cases h : heads k with
    | err => exact absurd h he
    | ok r n =>
      rw [h] at ho hd
      simp only [headOngoing] at ho
      simp only [headDone] at hd
      simp [initiate_restore_key, ho, hd]

/-- Witness for C6: a key with no `Restore` header receives exactly the
1-day, `"Standard"`-tier restore request. -/
theorem initiate_restore_spec_witness :
    "a" ∈ ["a"] ∧
    ("a", RestoreAction.requestRestore 1 "Standard") ∈
      initiate_restore headsNone ["a"] :=
  ⟨by decide, (initiate_restore_spec headsNone ["a"] "a" (by decide)).1⟩

/-- Counterexample to C10's deletion clause as stated.  The claim asserts
non-current `DEEP_ARCHIVE` versions of a migrated key are deleted during
cleanup, but a failing `delete_object` raises into the `except` of line 138:
here the delete of the deep-archive version `"w1"` of key `"d"` fails, and
the version survives the run. -/
theorem deep_archive_cleanup_cex :
    (⟨"d", "w1", some "DEEP_ARCHIVE", false⟩ : S3Version) ∈ storeDA ∧
    (⟨"d", "w1", some "DEEP_ARCHIVE", false⟩ : S3Version).isLatest = false ∧
    (⟨"d", "w1", some "DEEP_ARCHIVE", false⟩ : S3Version) ∈
      (cleanup_glacier_versions envDelFailDA storeDA "d").2 := by
  decide

/-- C10 (amended).  Discovery selects exactly the keys listed with storage
class `"GLACIER"` (so `DEEP_ARCHIVE` objects are never candidates), restore
initiation touches exactly the discovered candidates, and yet cleanup does
target non-current `DEEP_ARCHIVE` versions of a migrated key: such a version
is removed whenever the single-page listing covers the key's versions and
the listing and delete calls succeed. -/
theorem glacier_discovery_spec (pages : List (List ListedObject)) (k : String) :
    (k ∈ get_glacier_objects pages ↔
      ∃ o ∈ pages.flatten, o.key = k ∧ o.storageClass = some "GLACIER") ∧
    (∀ heads, (initiate_restore heads (get_glacier_objects pages)).map Prod.fst =
      get_glacier_objects pages) ∧
    (∀ (env : S3Env) (store : List S3Version) (v : S3Version),
      (store.map S3Version.versionId).Nodup →
      env.listVersionsOk = true →
      (∀ w ∈ cleanupSelected store k, env.deleteOk w.versionId = true) →
      (store.filter (fun w => startsWithChars w.key.data k.data)).length ≤ 1000 →
      v ∈ store → v.key = k → v.isLatest = false →
      v.storageClass = some "DEEP_ARCHIVE" →
      v ∉ (cleanup_glacier_versions env store k).2) := by
  refine ⟨?_, ?_, ?_⟩
  · simp only [get_glacier_objects, List.mem_filterMap]
    constructor
    · rintro ⟨o, ho, hsel⟩
      by_cases hg : o.storageClass = some "GLACIER"
      · rw [if_pos hg] at hsel
        exact ⟨o, ho, Option.some_inj.mp hsel, hg⟩
      · rw [if_neg hg] at hsel
        exact absurd hsel (Option.noConfusion)
    · rintro ⟨o, ho, hkey, hg⟩
      exact ⟨o, ho, by rw [if_pos hg, hkey]⟩
  · intro heads
    rw [initiate_restore, List.map_map]
    show List.map id (get_glacier_objects pages) = get_glacier_objects pages
    exact List.map_id _
  · intro env store v hU hlist hdel hfits hv hk hl hc
    rw [cleanup_mem_iff env store k hU hlist hdel hfits v]
    rintro ⟨_, hng⟩
    exact hng ⟨hk, hl, Or.inr hc⟩

/-- Witness for C10 (amended): with every call succeeding, the non-current
deep-archive version `"w1"` of key `"d"` is removed by the cleanup phase. -/
theorem glacier_discovery_spec_witness :
    (storeDA.map S3Version.versionId).Nodup ∧
    (⟨"d", "w1", some "DEEP_ARCHIVE", false⟩ : S3Version) ∉
      (cleanup_glacier_versions envAllOk storeDA "d").2 :=
  ⟨by decide,
   (glacier_discovery_spec [] "d").2.2 envAllOk storeDA
     ⟨"d", "w1", some "DEEP_ARCHIVE", false⟩
     (by decide) rfl (by decide) (by decide) (by decide) rfl rfl rfl⟩

theorem copyParts_ok (env : S3Env) (key : String) (size : Nat)
    (hp : ∀ i, env.partOk i = true) :
    ∀ (m i : Nat),
      copyParts env key size i m =
        ((List.range m).map (fun j =>
            S3Action.uploadPartCopy key (i + j + 1) ((i + j) * PART_SIZE)
              (min ((i + j) * PART_SIZE + PART_SIZE - 1) (size - 1))),
         (List.range m).map (fun j => (env.etag (i + j + 1), i + j + 1)),
         true) := by
  intro m
  induction m with
  | zero => intro i; simp [copyParts]
  | succ n ih =>
    intro i
    rw [copyParts]
    simp only [hp (i + 1), if_true]
    rw [ih (i + 1)]
    rw [List.range_succ_eq_map, List.map_cons, List.map_cons, List.map_map,
      List.map_map]
    simp only [Prod.mk.injEq]
    refine ⟨?_, ?_, trivial⟩
    · simp only [List.cons.injEq]
      refine ⟨by simp, ?_⟩
      apply List.map_congr_left
      intro j _
      simp only [Function.comp, Nat.succ_eq_add_one]
      rw [show i + (j + 1) = i + 1 + j by omega]
    · simp only [List.cons.injEq]
      refine ⟨by simp, ?_⟩
      apply List.map_congr_left
      intro j _
      simp only [Function.comp, Nat.succ_eq_add_one]
      rw [show i + (j + 1) = i + 1 + j by omega]

/-- C4.  When every remote call succeeds, a multipart copy of a positive-size
object issues the create call, then one `upload_part_copy` per part — parts
numbered `1 .. part_count size` in order, part `j` (0-based) covering the
byte range `[j * PART_SIZE, min ((j+1) * PART_SIZE - 1) (size - 1)]` — then
completes with the tags in part order; every part except possibly the last
spans exactly `PART_SIZE` bytes, and the final range ends at byte
`size - 1` exactly.  `part_count size` is the ceiling of
`size / PART_SIZE` by definition. -/
theorem multipart_copy_parts_spec (env : S3Env) (key : String) (size : Nat)
    (h0 : 0 < size) (hcr : env.createOk = true)
    (hp : ∀ i, env.partOk i = true) (hcm : env.completeOk = true) :
    (multipart_copy env key size).1 =
      S3Action.createMultipart key ::
        (List.range (part_count size)).map (fun j =>
          S3Action.uploadPartCopy key (j + 1) (j * PART_SIZE)
            (min (j * PART_SIZE + PART_SIZE - 1) (size - 1))) ++
        [S3Action.completeMultipart key
          ((List.range (part_count size)).map (fun j => (env.etag (j + 1), j + 1)))] ∧
    (multipart_copy env key size).2 = true ∧
    (∀ j, j + 1 < part_count size →
      min (j * PART_SIZE + PART_SIZE - 1) (size - 1) - j * PART_SIZE + 1 = PART_SIZE) ∧
    min ((part_count size - 1) * PART_SIZE + PART_SIZE - 1) (size - 1) = size - 1 := by
  have hcp := copyParts_ok env key size hp (part_count size) 0
  simp only [Nat.zero_add] at hcp
  refine ⟨?_, ?_, ?_, ?_⟩
  · rw [multipart_copy]
    simp only [hcr, hcp, hcm, eq_self_iff_true, ite_true]
  · rw [multipart_copy]
    simp only [hcr, hcp, hcm, eq_self_iff_true, ite_true]
  · intro j hj
    simp only [part_count, PART_SIZE] at hj ⊢
    omega
  · simp only [part_count, PART_SIZE] at h0 ⊢
    omega

/-- Witness for C4: an object of `PART_SIZE + 5` bytes is copied in two
parts whose trace matches the specification, and the final range ends at
the last byte. -/
theorem multipart_copy_parts_spec_witness :
    0 < PART_SIZE + 5 ∧
    (multipart_copy envAllOk "k" (PART_SIZE + 5)).1 =
      S3Action.createMultipart "k" ::
        (List.range (part_count (PART_SIZE + 5))).map (fun j =>
          S3Action.uploadPartCopy "k" (j + 1) (j * PART_SIZE)
            (min (j * PART_SIZE + PART_SIZE - 1) (PART_SIZE + 5 - 1))) ++
        [S3Action.completeMultipart "k"
          ((List.range (part_count (PART_SIZE + 5))).map
            (fun j => (envAllOk.etag (j + 1), j + 1)))] ∧
    min ((part_count (PART_SIZE + 5) - 1) * PART_SIZE + PART_SIZE - 1)
        (PART_SIZE + 5 - 1) = PART_SIZE + 5 - 1 :=
  ⟨by decide,
   (multipart_copy_parts_spec envAllOk "k" (PART_SIZE + 5) (by decide) rfl
     (fun _ => rfl) rfl).1,
   (multipart_copy_parts_spec envAllOk "k" (PART_SIZE + 5) (by decide) rfl
     (fun _ => rfl) rfl).2.2.2⟩

/-! ## Lemmas for the restore-polling loop -/

theorem firstDone_of_done (heads : Nat → String → HeadResult) (k : String)
    (q : Nat) (hq : headDone (heads q k) = true) :
    ∃ r, r ≤ q ∧ firstDoneAt heads k r := by
  have hex : ∃ r, headDone (heads r k) = true := ⟨q, hq⟩
  refine ⟨Nat.find hex, Nat.find_min' hex hq, Nat.find_spec hex, ?_⟩
  intro s hs
  have hmin := Nat.find_min hex hs
  simpa using hmin

theorem poll_round_lookup_some (h : String → HeadResult) :
    ∀ (ks : List String) (restored : List (String × Nat)) (key : String) (v : Nat),
      lookupKey restored key = some v →
      lookupKey (poll_round h restored ks) key = some v := by
  intro ks
  induction ks with
  | nil => intro restored key v hv; exact hv
  | cons a rest ih =>
    intro restored key v hv
    rw [poll_round]
    by_cases ha : (lookupKey restored a).isSome = true
    · rw [if_pos ha]
      exact ih restored key v hv
    · rw [if_neg ha]
      by_cases hd : headDone (h a) = true
      · rw [if_pos hd]
        exact ih _ key v (lookupKey_append_isSome _ _ _ _ hv)
      · rw [if_neg hd]
        exact ih restored key v hv

theorem poll_round_lookup_none (h : String → HeadResult) :
    ∀ (ks : List String) (restored : List (String × Nat)) (key : String),
      lookupKey restored key = none →
      lookupKey (poll_round h restored ks) key =
        (if key ∈ ks ∧ headDone (h key) = true
         then some (headSize (h key)) else none) := by
  intro ks
  induction ks with
  | nil =>
    intro restored key hv
    simp [poll_round, hv]
  | cons a rest ih =>
    intro restored key hv
    rw [poll_round]
    by_cases ha : (lookupKey restored a).isSome = true
    · rw [if_pos ha]
      rw [ih restored key hv]
      by_cases hka : key = a
      · subst hka
        rw [hv] at ha
        simp at ha
      · simp [List.mem_cons, hka]
    · rw [if_neg ha]
      by_cases hd : headDone (h a) = true
      · rw [if_pos hd]
        by_cases hka : key = a
        · subst hka
          have h2 : lookupKey (restored ++ [(key, headSize (h key))]) key =
              some (headSize (h key)) := by
            rw [lookupKey_append_none _ _ _ hv]
            simp [lookupKey]
          rw [poll_round_lookup_some h rest _ _ _ h2]
          simp [List.mem_cons, hd]
        · have h2 : lookupKey (restored ++ [(a, headSize (h a))]) key = none := by
            rw [lookupKey_append_none _ _ _ hv]
            rw [lookupKey, if_neg (fun heq => hka heq.symm)]
            rfl
          rw [ih _ key h2]
          simp [List.mem_cons, hka]
      · rw [if_neg hd]
        rw [ih restored key hv]
        by_cases hka : key = a
        · subst hka
          simp [hd]
        · simp [List.mem_cons, hka]

theorem poll_round_nodup (h : String → HeadResult) :
    ∀ (ks : List String) (restored : List (String × Nat)),
      (restored.map Prod.fst).Nodup →
      ((poll_round h restored ks).map Prod.fst).Nodup := by
  intro ks
  induction ks with
  | nil => intro restored hn; exact hn
  | cons a rest ih =>
    intro restored hn
    rw [poll_round]
    by_cases ha : (lookupKey restored a).isSome = true
    · rw [if_pos ha]; exact ih restored hn
    · rw [if_neg ha]
      by_cases hd : headDone (h a) = true
      · rw [if_pos hd]
        apply ih
        have hna : a ∉ restored.map Prod.fst := by
          rw [← lookupKey_none_iff]
          rcases hx : lookupKey restored a with _ | w
          · rfl
          · rw [hx] at ha; simp at ha
        simp [List.map_append, List.nodup_append, hn, hna]
      · rw [if_neg hd]; exact ih restored hn

theorem invW_init (heads : Nat → String → HeadResult) (keys : List String) :
    InvW heads keys 0 [] := by
  constructor
  · simp
  · intro key v
    constructor
    · intro h; simp [lookupKey] at h
    · rintro ⟨_, r, hr, _⟩; omega

theorem invW_fst_subset (heads : Nat → String → HeadResult) (keys : List String)
    (round : Nat) (restored : List (String × Nat))
    (hinv : InvW heads keys round restored) :
    ∀ x ∈ restored.map Prod.fst, x ∈ keys := by
  intro x hx
  rw [← lookupKey_isSome_iff] at hx
  rcases hy : lookupKey restored x with _ | v
  · rw [hy] at hx; simp at hx
  · exact ((hinv.2 x v).mp hy).1

theorem invW_step (heads : Nat → String → HeadResult) (keys : List String)
    (round : Nat) (restored : List (String × Nat))
    (hinv : InvW heads keys round restored) :
    InvW heads keys (round + 1) (poll_round (heads round) restored keys) := by
  obtain ⟨hnd, hiff⟩ := hinv
  refine ⟨poll_round_nodup _ keys restored hnd, ?_⟩
  intro key v
  rcases hx : lookupKey restored key with _ | w
  · rw [poll_round_lookup_none _ keys restored key hx]
    by_cases hc : key ∈ keys ∧ headDone (heads round key) = true
    · rw [if_pos hc]
      constructor
      · intro hv
        have hv' : v = headSize (heads round key) := (Option.some_inj.mp hv).symm
        refine ⟨hc.1, round, Nat.lt_succ_self round, ⟨hc.2, ?_⟩, hv'⟩
        intro q hq
        by_contra hqd
        have hqd' : headDone (heads q key) = true := by simpa using hqd
        obtain ⟨r, hrq, hfirst⟩ := firstDone_of_done heads key q hqd'
        have hsome : lookupKey restored key = some (headSize (heads r key)) :=
          (hiff key _).mpr ⟨hc.1, r, by omega, hfirst, rfl⟩
        rw [hx] at hsome
        exact Option.noConfusion hsome
      · rintro ⟨hk, r, hr, hfirst, hv⟩
        rcases Nat.lt_succ_iff_lt_or_eq.mp hr with hlt | heq
        · exfalso
          have hsome : lookupKey restored key = some (headSize (heads r key)) :=
            (hiff key _).mpr ⟨hk, r, hlt, hfirst, rfl⟩
          rw [hx] at hsome
          exact Option.noConfusion hsome
        · subst heq
          rw [hv]
    · rw [if_neg hc]
      constructor
      · intro hv; exact Option.noConfusion hv
      · rintro ⟨hk, r, hr, hfirst, hv⟩
        exfalso
        rcases Nat.lt_succ_iff_lt_or_eq.mp hr with hlt | heq
        · have hsome : lookupKey restored key = some (headSize (heads r key)) :=
            (hiff key _).mpr ⟨hk, r, hlt, hfirst, rfl⟩
          rw [hx] at hsome
          exact Option.noConfusion hsome
        · subst heq
          exact hc ⟨hk, hfirst.1⟩
  · rw [poll_round_lookup_some _ keys restored key w hx]
    have hw := (hiff key w).mp hx
    constructor
    · intro hv
      have hvw : w = v := Option.some_inj.mp hv
      subst hvw
      obtain ⟨hk, r, hr, hfirst, hv'⟩ := hw
      exact ⟨hk, r, Nat.lt_succ_of_lt hr, hfirst, hv'⟩
    · rintro ⟨hk, r, hr, hfirst, hv⟩
      obtain ⟨hk', r', hr', hfirst', hv''⟩ := hw
      have hrr : r = r' := by
        rcases Nat.lt_trichotomy r r' with h1 | h1 | h1
        · have h2 := hfirst.1
          rw [hfirst'.2 r h1] at h2
          exact absurd h2 (by simp)
        · exact h1
        · have h2 := hfirst'.1
          rw [hfirst.2 r' h1] at h2
          exact absurd h2 (by simp)
      subst hrr
      rw [hv, hv'']

theorem invW_length_lt (heads : Nat → String → HeadResult) (keys : List String)
    (hknd : keys.Nodup) (round : Nat) (restored : List (String × Nat))
    (hinv : InvW heads keys round restored) (k0 : String) (hk0 : k0 ∈ keys)
    (hnone : lookupKey restored k0 = none) :
    restored.length < keys.length := by
  have hsub : (restored.map Prod.fst).toFinset ⊆ keys.toFinset.erase k0 := by
    intro x hx
    rw [List.mem_toFinset] at hx
    have hxk : x ∈ keys := invW_fst_subset heads keys round restored hinv x hx
    have hxne : x ≠ k0 := by
      intro he
      subst he
      rw [← lookupKey_isSome_iff, hnone] at hx
      simp at hx
    exact Finset.mem_erase.mpr ⟨hxne, List.mem_toFinset.mpr hxk⟩
  have h1 : (restored.map Prod.fst).toFinset.card ≤ (keys.toFinset.erase k0).card :=
    Finset.card_le_card hsub
  rw [List.toFinset_card_of_nodup hinv.1, List.length_map] at h1
  rw [Finset.card_erase_of_mem (List.mem_toFinset.mpr hk0),
    List.toFinset_card_of_nodup hknd] at h1
  have hpos : 0 < keys.length := List.length_pos_of_mem hk0
  omega

theorem invW_exit (heads : Nat → String → HeadResult) (keys : List String)
    (hknd : keys.Nodup) (round : Nat) (restored : List (String × Nat))
    (hinv : InvW heads keys round restored)
    (hlen : ¬ restored.length < keys.length) :
    ∀ k ∈ keys, ∃ r, firstDoneAt heads k r ∧
      lookupKey restored k = some (headSize (heads r k)) := by
  obtain ⟨hnd, hiff⟩ := hinv
  have hsub : ∀ x ∈ restored.map Prod.fst, x ∈ keys :=
    invW_fst_subset heads keys round restored ⟨hnd, hiff⟩
  have hsubF : (restored.map Prod.fst).toFinset ⊆ keys.toFinset := by
    intro x hx
    rw [List.mem_toFinset] at hx ⊢
    exact hsub x hx
  have heqF : (restored.map Prod.fst).toFinset = keys.toFinset := by
    apply Finset.eq_of_subset_of_card_le hsubF
    rw [List.toFinset_card_of_nodup hnd, List.length_map,
      List.toFinset_card_of_nodup hknd]
    omega
  intro k hk
  have hkm : k ∈ restored.map Prod.fst := by
    rw [← List.mem_toFinset, heqF, List.mem_toFinset]
    exact hk
  rw [← lookupKey_isSome_iff] at hkm
  rcases hy : lookupKey restored k with _ | v
  · rw [hy] at hkm; simp at hkm
  · obtain ⟨_, r, _, hfirst, hv⟩ := (hiff k v).mp hy
    exact ⟨r, hfirst, congrArg some hv⟩

theorem wait_go_stalls (heads : Nat → String → HeadResult) (keys : List String)
    (hknd : keys.Nodup) (k0 : String) (hk0 : k0 ∈ keys)
    (hnever : ∀ r, headDone (heads r k0) = false) :
    ∀ (fuel round : Nat) (restored : List (String × Nat)),
      InvW heads keys round restored →
      wait_go heads keys fuel round restored = none := by
  intro fuel
  induction fuel with
  | zero => intro round restored _; rfl
  | succ n ih =>
    intro round restored hinv
    have hnone : lookupKey restored k0 = none := by
      rcases hx : lookupKey restored k0 with _ | v
      · rfl
      · obtain ⟨_, r, _, hfirst, _⟩ := (hinv.2 k0 v).mp hx
        have h2 := hfirst.1
        rw [hnever r] at h2
        exact absurd h2 (by simp)
    have hlen : restored.length < keys.length :=
      invW_length_lt heads keys hknd round restored hinv k0 hk0 hnone
    rw [wait_go, if_pos hlen]
    exact ih (round + 1) _ (invW_step heads keys round restored hinv)

theorem wait_go_reaches (heads : Nat → String → HeadResult) (keys : List String)
    (hknd : keys.Nodup) (R : Nat)
    (hall : ∀ k ∈ keys, ∃ r, r < R ∧ headDone (heads r k) = true) :
    ∀ (fuel round : Nat) (restored : List (String × Nat)),
      InvW heads keys round restored → R ≤ round + fuel →
      ∃ res, wait_go heads keys (fuel + 1) round restored = some res ∧
        ∀ k ∈ keys, ∃ r, firstDoneAt heads k r ∧
          lookupKey res k = some (headSize (heads r k)) := by
  intro fuel
  induction fuel with
  | zero =>
    intro round restored hinv hR
    have hfull : ¬ restored.length < keys.length := by
      intro hlt
      have hsome : ∀ k ∈ keys, (lookupKey restored k).isSome = true := by
        intro k hk
        obtain ⟨q, hqR, hq⟩ := hall k hk
        obtain ⟨r, hrq, hfirst⟩ := firstDone_of_done heads k q hq
        have hsk : lookupKey restored k = some (headSize (heads r k)) :=
          (hinv.2 k _).mpr ⟨hk, r, by omega, hfirst, rfl⟩
        rw [hsk]
        rfl
      have hsubk : keys.toFinset ⊆ (restored.map Prod.fst).toFinset := by
        intro x hx
        rw [List.mem_toFinset] at hx ⊢
        rw [← lookupKey_isSome_iff]
        exact hsome x hx
      have h1 := Finset.card_le_card hsubk
      rw [List.toFinset_card_of_nodup hknd,
        List.toFinset_card_of_nodup hinv.1, List.length_map] at h1
      omega
    rw [wait_go, if_neg hfull]
    exact ⟨restored, rfl, invW_exit heads keys hknd round restored hinv hfull⟩
  | succ n ih =>
    intro round restored hinv hR
    by_cases hlen : restored.length < keys.length
    · rw [wait_go, if_pos hlen]
      exact ih (round + 1) _ (invW_step heads keys round restored hinv) (by omega)
    · rw [wait_go, if_neg hlen]
      exact ⟨restored, rfl, invW_exit heads keys hknd round restored hinv hlen⟩

theorem exists_done_bound (heads : Nat → String → HeadResult) :
    ∀ (keys : List String),
      (∀ k ∈ keys, ∃ r, headDone (heads r k) = true) →
      ∃ R, ∀ k ∈ keys, ∃ r, r < R ∧ headDone (heads r k) = true := by
  intro keys
  induction keys with
  | nil => intro _; exact ⟨0, by simp⟩
  | cons a rest ih =>
    intro hall
    obtain ⟨ra, hra⟩ := hall a (List.mem_cons_self a rest)
    obtain ⟨R, hR⟩ := ih (fun k hk => hall k (List.mem_cons_of_mem a hk))
    refine ⟨max (ra + 1) R, ?_⟩
    intro k hk
    rcases List.mem_cons.mp hk with he | hm
    · subst he
      exact ⟨ra, lt_of_lt_of_le (Nat.lt_succ_self ra) (le_max_left _ _), hra⟩
    · obtain ⟨r, hr, hd⟩ := hR k hm
      exact ⟨r, lt_of_lt_of_le hr (le_max_right _ _), hd⟩

/-- C5.  The polling loop has no cap: if every candidate key eventually
reports a completed restore, some fuel makes the loop return a map sending
each candidate key to the `ContentLength` captured at the first sweep whose
head result reported the completed restore; if some candidate key never
reports one, the loop returns nothing at every fuel — it never terminates. -/
theorem wait_for_restore_spec (heads : Nat → String → HeadResult)
    (keys : List String) (hknd : keys.Nodup) :
    ((∀ k ∈ keys, ∃ r, headDone (heads r k) = true) →
      ∃ fuel res, wait_for_restore heads keys fuel = some res ∧
        ∀ k ∈ keys, ∃ r, firstDoneAt heads k r ∧
          lookupKey res k = some (headSize (heads r k))) ∧
    ((∃ k ∈ keys, ∀ r, headDone (heads r k) = false) →
      ∀ fuel, wait_for_restore heads keys fuel = none) := by
  constructor
  · intro hall
    obtain ⟨R, hR⟩ := exists_done_bound heads keys hall
    obtain ⟨res, hres, hprop⟩ :=
      wait_go_reaches heads keys hknd R hR R 0 [] (invW_init heads keys) (by omega)
    exact ⟨R + 1, res, hres, hprop⟩
  · rintro ⟨k0, hk0, hnever⟩ fuel
    exact wait_go_stalls heads keys hknd k0 hk0 hnever fuel 0 [] (invW_init heads keys)

/-- Witness for C5: with a single key whose restore is complete from sweep 0,
the loop terminates with the captured size. -/
theorem wait_for_restore_spec_witness :
    (["a"] : List String).Nodup ∧
    (∃ fuel res, wait_for_restore headsDone ["a"] fuel = some res ∧
      ∀ k ∈ ["a"], ∃ r, firstDoneAt headsDone k r ∧
        lookupKey res k = some (headSize (headsDone r k))) :=
  ⟨by decide,
   (wait_for_restore_spec headsDone ["a"] (by decide)).1
     (fun k _ => ⟨0, rfl⟩)⟩

/-! ## Lemmas for the Profile Provisioner -/

theorem lookupKey_dictSet {α : Type} (d : List (String × α)) (k key : String)
    (v : α) :
    lookupKey (dictSet d k v) key =
      (if k = key then some v else lookupKey d key) := by
  induction d with
  | nil => rfl
  | cons p rest ih =>
    obtain ⟨k', v'⟩ := p
    rw [dictSet]
    by_cases h1 : k' = k
    · rw [if_pos h1]
      by_cases h2 : k = key
      · subst h2
        subst h1
        simp [lookupKey]
      · have h3 : ¬ k' = key := by rw [h1]; exact h2
        simp [lookupKey, h2, h3]
    · rw [if_neg h1]
      by_cases h3 : k' = key
      · have h2 : ¬ k = key := fun hc => h1 (h3.trans hc.symm)
        simp [lookupKey, h3, h2]
      · simp only [lookupKey, if_neg h3]
        exact ih

theorem lookupKey_apply_services (ep : VpcEndpoint) :
    ∀ (svcs : List String) (acc : List (String × String)) (key : String),
      lookupKey (apply_services ep acc svcs) key =
        (if key ∈ svcs ∧ strContains ep.serviceName ("." ++ key ++ ".") = true
         then some (ep.dnsNames.headD "")
         else lookupKey acc key) := by
  intro svcs
  induction svcs with
  | nil =>
    intro acc key
    simp [apply_services]
  | cons svc rest ih =>
    intro acc key
    rw [apply_services]
    by_cases hm : strContains ep.serviceName ("." ++ svc ++ ".") = true
    · rw [if_pos hm, ih]
      by_cases hk : key ∈ rest ∧ strContains ep.serviceName ("." ++ key ++ ".") = true
      · rw [if_pos hk, if_pos ⟨List.mem_cons_of_mem svc hk.1, hk.2⟩]
      · rw [if_neg hk]
        rw [lookupKey_dictSet]
        by_cases he : svc = key
        · subst he
          rw [if_pos rfl, if_pos ⟨List.mem_cons_self svc rest, hm⟩]
        · rw [if_neg he]
          by_cases hk2 : key ∈ svc :: rest ∧
              strContains ep.serviceName ("." ++ key ++ ".") = true
          · exfalso
            rcases List.mem_cons.mp hk2.1 with h | h
            · exact he h.symm
            · exact hk ⟨h, hk2.2⟩
          · rw [if_neg hk2]
    · rw [if_neg hm, ih]
      by_cases hk : key ∈ rest ∧ strContains ep.serviceName ("." ++ key ++ ".") = true
      · rw [if_pos hk, if_pos ⟨List.mem_cons_of_mem svc hk.1, hk.2⟩]
      · rw [if_neg hk]
        by_cases hk2 : key ∈ svc :: rest ∧
            strContains ep.serviceName ("." ++ key ++ ".") = true
        · exfalso
          rcases List.mem_cons.mp hk2.1 with h | h
          · subst h
            exact hm hk2.2
          · exact hk ⟨h, hk2.2⟩
        · rw [if_neg hk2]

theorem lookupKey_service_endpoints_go (svcs : List String) :
    ∀ (eps : List VpcEndpoint) (acc : List (String × String)) (key : String),
      key ∈ svcs →
      lookupKey (service_endpoints_go svcs acc eps) key =
        (match lastMatch key eps with
         | some ep => some (ep.dnsNames.headD "")
         | none => lookupKey acc key) := by
  intro eps
  induction eps with
  | nil => intro acc key _; rfl
  | cons ep rest ih =>
    intro acc key hk
    rw [service_endpoints_go, lastMatch]
    by_cases ht : ep.vpcEndpointType = "Interface"
    · rw [if_pos ht, ih _ _ hk]
      rcases hlm : lastMatch key rest with _ | x
      · rw [lookupKey_apply_services]
        by_cases hm : strContains ep.serviceName ("." ++ key ++ ".") = true
        · have hms : matchesSvc ep key = true := by
            simp [matchesSvc, ht, hm]
          rw [if_pos ⟨hk, hm⟩, hms]
          rfl
        · have hms : matchesSvc ep key = false := by
            simp only [matchesSvc, Bool.and_eq_false_iff]
            right
            simpa using hm
          rw [if_neg (fun hc => hm hc.2), hms]
          rfl
      · rfl
    · rw [if_neg ht, ih _ _ hk]
      have hms : matchesSvc ep key = false := by
        simp only [matchesSvc, Bool.and_eq_false_iff]
        left
        simpa using ht
      rcases hlm : lastMatch key rest with _ | x
      · rw [hms]
        rfl
      · rfl

theorem lastMatch_some (key : String) :
    ∀ (eps : List VpcEndpoint) (x : VpcEndpoint),
      lastMatch key eps = some x → x ∈ eps ∧ matchesSvc x key = true := by
  intro eps
  induction eps with
  | nil => intro x h; exact absurd h (by simp [lastMatch])
  | cons ep rest ih =>
    intro x h
    rw [lastMatch] at h
    rcases hlm : lastMatch key rest with _ | y
    · rw [hlm] at h
      by_cases hm : matchesSvc ep key = true
      · rw [if_pos hm] at h
        have he : ep = x := Option.some_inj.mp h
        subst he
        exact ⟨List.mem_cons_self _ _, hm⟩
      · rw [if_neg hm] at h
        exact absurd h (by simp)
    · rw [hlm] at h
      have he : y = x := Option.some_inj.mp h
      subst he
      obtain ⟨hy1, hy2⟩ := ih y hlm
      exact ⟨List.mem_cons_of_mem ep hy1, hy2⟩

theorem lastMatch_none (key : String) :
    ∀ (eps : List VpcEndpoint),
      lastMatch key eps = none → ∀ x ∈ eps, matchesSvc x key = false := by
  intro eps
  induction eps with
  | nil => intro _ x hx; exact absurd hx (by simp)
  | cons ep rest ih =>
    intro h x hx
    rw [lastMatch] at h
    rcases hlm : lastMatch key rest with _ | y
    · rw [hlm] at h
      by_cases hm : matchesSvc ep key = true
      · rw [if_pos hm] at h
        exact absurd h (by simp)
      · rcases List.mem_cons.mp hx with he | hr
        · subst he
          simpa using hm
        · exact ih hlm x hr
    · rw [hlm] at h
      exact absurd h (by simp)

theorem lastMatch_append (key : String) (l₁ l₂ : List VpcEndpoint) :
    lastMatch key (l₁ ++ l₂) =
      (match lastMatch key l₂ with
       | some x => some x
       | none => lastMatch key l₁) := by
  induction l₁ with
  | nil =>
    rcases hm : lastMatch key l₂ with _ | x <;> simp [lastMatch, hm]
  | cons ep rest ih =>
    rw [List.cons_append, lastMatch, ih, lastMatch]
    rcases hm : lastMatch key l₂ with _ | x
    · rfl
    · rfl

/-! # Claim theorems: Profile Provisioner -/

/-- Counterexample to C7 as stated.  The claim says an endpoint is attributed
to a service identifier iff its type is `"Interface"` and its service-name
string contains the identifier as a substring.  The interface endpoint with
service name `"s3"` contains the identifier `"s3"` as a substring, yet the
code — which tests for the dotted form `".s3."` — attributes nothing. -/
theorem service_match_substring_cex :
    "s3" ∈ services ∧
    epBare.vpcEndpointType = "Interface" ∧
    strContains epBare.serviceName "s3" = true ∧
    lookupKey (service_endpoints [epBare] services) "s3" = none := by
  decide

/-- C7 (amended).  A service identifier of the probe list is attributed a
hostname iff some enumerated endpoint has type `"Interface"` and its
service-name string contains the identifier SURROUNDED BY DOTS
(`"." + svc + "."`) as a substring. -/
theorem service_match_dotted_spec (eps : List VpcEndpoint) (svc : String)
    (hsvc : svc ∈ services) :
    (lookupKey (service_endpoints eps services) svc).isSome = true ↔
      ∃ ep ∈ eps, ep.vpcEndpointType = "Interface" ∧
        strContains ep.serviceName ("." ++ svc ++ ".") = true := by
  rw [service_endpoints, lookupKey_service_endpoints_go services eps [] svc hsvc]
  rcases hlm : lastMatch svc eps with _ | x
  · constructor
    · intro h
      simp [lookupKey] at h
    · rintro ⟨ep, hep, ht, hm⟩
      have hms := lastMatch_none svc eps hlm ep hep
      simp only [matchesSvc, Bool.and_eq_false_iff, beq_eq_false_iff_ne, ne_eq] at hms
      rcases hms with h1 | h1
      · exact absurd ht h1
      · rw [hm] at h1
        exact absurd h1 (by simp)
  · constructor
    · intro _
      obtain ⟨hmem, hm⟩ := lastMatch_some svc eps x hlm
      simp only [matchesSvc, Bool.and_eq_true, beq_iff_eq] at hm
      exact ⟨x, hmem, hm.1, hm.2⟩
    · intro _
      rfl

/-- Witness for C7 (amended): a dotted service name is attributed. -/
theorem service_match_dotted_spec_witness :
    "s3" ∈ services ∧
    ((lookupKey (service_endpoints [epDotted] services) "s3").isSome = true ↔
      ∃ ep ∈ [epDotted], ep.vpcEndpointType = "Interface" ∧
        strContains ep.serviceName ("." ++ "s3" ++ ".") = true) :=
  ⟨by decide, service_match_dotted_spec [epDotted] "s3" (by decide)⟩

/-- Counterexample to C8 as stated.  Two interface endpoints both match
`"s3"`; the first carries hostname `"h1"`, but the mapping records `"h2"`
from the second: the dict assignment in the loop means the LAST matching
endpoint wins, not the first. -/
theorem endpoint_first_wins_cex :
    matchesSvc epDotted "s3" = true ∧
    matchesSvc epDotted2 "s3" = true ∧
    epDotted.dnsNames.headD "" = "h1" ∧
    lookupKey (service_endpoints [epDotted, epDotted2] services) "s3" =
      some "h2" := by
  decide

/-- C8 (amended).  When several enumerated endpoints match the same service
identifier, the LAST matching endpoint in enumeration order determines the
recorded hostname: whatever matching endpoints precede it, an endpoint
followed by no further match fixes the value. -/
theorem endpoint_last_wins_spec (eps₁ eps₂ : List VpcEndpoint)
    (ep : VpcEndpoint) (svc : String) (hsvc : svc ∈ services)
    (hm : matchesSvc ep svc = true)
    (hafter : ∀ e ∈ eps₂, matchesSvc e svc = false) :
    lookupKey (service_endpoints (eps₁ ++ ep :: eps₂) services) svc =
      some (ep.dnsNames.headD "") := by
  rw [service_endpoints, lookupKey_service_endpoints_go services _ [] svc hsvc]
  have h3 : lastMatch svc eps₂ = none := by
    rcases h4 : lastMatch svc eps₂ with _ | y
    · rfl
    · obtain ⟨hy1, hy2⟩ := lastMatch_some svc eps₂ y h4
      rw [hafter y hy1] at hy2
      exact absurd hy2 (by simp)
  have h2 : lastMatch svc (eps₁ ++ ep :: eps₂) = some ep := by
    rw [lastMatch_append, lastMatch, h3, if_pos hm]
  rw [h2]

/-- Witness for C8 (amended): with both matching endpoints enumerated, the
second one's hostname is recorded. -/
theorem endpoint_last_wins_spec_witness :
    "s3" ∈ services ∧ matchesSvc epDotted2 "s3" = true ∧
    lookupKey (service_endpoints ([epDotted] ++ epDotted2 :: []) services) "s3" =
      some (epDotted2.dnsNames.headD "") :=
  ⟨by decide, by decide,
   endpoint_last_wins_spec [epDotted] [] epDotted2 "s3" (by decide) (by decide)
     (fun e he => absurd he (by simp))⟩

theorem lookupKey_cfgSet_other (name key value s : String)
    (hs : s ≠ name) :
    ∀ (cfg : Config),
      lookupKey (cfgSet cfg name key value) s = lookupKey cfg s := by
  intro cfg
  induction cfg with
  | nil => rfl
  | cons p rest ih =>
    obtain ⟨n', sec'⟩ := p
    rw [cfgSet]
    by_cases h1 : n' = name
    · rw [if_pos h1]
      have h2 : ¬ n' = s := fun hc => hs (hc.symm.trans h1)
      rw [lookupKey, if_neg h2, lookupKey, if_neg h2]
      exact ih
    · rw [if_neg h1]
      by_cases h2 : n' = s
      · rw [lookupKey, if_pos h2, lookupKey, if_pos h2]
      · rw [lookupKey, if_neg h2, lookupKey, if_neg h2]
        exact ih

theorem lookupKey_cfgSet_self_some (name key value : String) :
    ∀ (cfg : Config) (sec : CfgSection),
      lookupKey cfg name = some sec →
      lookupKey (cfgSet cfg name key value) name =
        some (dictSet sec key value) := by
  intro cfg
  induction cfg with
  | nil => intro sec h; simp [lookupKey] at h
  | cons p rest ih =>
    intro sec h
    obtain ⟨n', sec'⟩ := p
    rw [cfgSet]
    by_cases h1 : n' = name
    · rw [if_pos h1]
      rw [lookupKey, if_pos h1] at h
      rw [lookupKey, if_pos h1]
      rw [Option.some_inj.mp h]
    · rw [if_neg h1]
      rw [lookupKey, if_neg h1] at h
      rw [lookupKey, if_neg h1]
      exact ih sec h

theorem lookupKey_add_section_other (cfg : Config) (n s : String)
    (hns : n ≠ s) :
    lookupKey (add_section cfg n) s = lookupKey cfg s := by
  rcases h : lookupKey cfg s with _ | sec
  · rw [add_section, lookupKey_append_none cfg _ s h]
    rw [lookupKey, if_neg hns]
    rfl
  · exact lookupKey_append_isSome cfg _ s sec h

theorem lookupKey_add_section_self_none (cfg : Config) (n : String)
    (h : lookupKey cfg n = none) :
    lookupKey (add_section cfg n) n = some [] := by
  rw [add_section, lookupKey_append_none cfg _ n h]
  rw [lookupKey, if_pos rfl]

theorem hasSection_eq_isSome (n : String) : ∀ (cfg : Config),
    hasSection cfg n = (lookupKey cfg n).isSome := by
  intro cfg
  induction cfg with
  | nil => rfl
  | cons p rest ih =>
    obtain ⟨n', sec'⟩ := p
    simp only [hasSection, List.any_cons] at ih ⊢
    by_cases h : n' = n
    · rw [lookupKey, if_pos h]
      have hb : (((n', sec') : String × CfgSection).1 == n) = true := by
        simp [h]
      rw [hb, Bool.true_or]
      rfl
    · rw [lookupKey, if_neg h]
      have hb : (((n', sec') : String × CfgSection).1 == n) = false := by
        simp [h]
      rw [hb, Bool.false_or]
      exact ih

theorem lookupKey_foldl_cfgSet_other (name s : String) (hs : s ≠ name)
    (vf : String × String → String) :
    ∀ (l : List (String × String)) (cfg : Config),
      lookupKey (l.foldl (fun c p => cfgSet c name p.1 (vf p)) cfg) s =
        lookupKey cfg s := by
  intro l
  induction l with
  | nil => intro cfg; rfl
  | cons p rest ih =>
    intro cfg
    rw [List.foldl_cons, ih, lookupKey_cfgSet_other name p.1 (vf p) s hs]

theorem lookupKey_foldl_cfgSet_self (name : String)
    (vf : String × String → String) :
    ∀ (l : List (String × String)) (cfg : Config) (sec : CfgSection),
      lookupKey cfg name = some sec →
      (∀ p ∈ l, p.1 ∈ services) →
      ∃ sec', lookupKey
          (l.foldl (fun c p => cfgSet c name p.1 (vf p)) cfg) name = some sec' ∧
        ∀ k, k ∉ services → lookupKey sec' k = lookupKey sec k := by
  intro l
  induction l with
  | nil =>
    intro cfg sec hsec _
    exact ⟨sec, hsec, fun k _ => rfl⟩
  | cons p rest ih =>
    intro cfg sec hsec hl
    rw [List.foldl_cons]
    have h1 : lookupKey (cfgSet cfg name p.1 (vf p)) name =
        some (dictSet sec p.1 (vf p)) :=
      lookupKey_cfgSet_self_some name p.1 (vf p) cfg sec hsec
    obtain ⟨sec', h2, h3⟩ :=
      ih _ _ h1 (fun q hq => hl q (List.mem_cons_of_mem p hq))
    refine ⟨sec', h2, ?_⟩
    intro k hk
    have hne : ¬ p.1 = k := by
      intro he
      apply hk
      rw [← he]
      exact hl p (List.mem_cons_self p rest)
    rw [h3 k hk, lookupKey_dictSet, if_neg hne]

theorem mem_dictSet {α : Type} : ∀ (d : List (String × α)) (k : String) (v : α)
    (p : String × α), p ∈ dictSet d k v → p.1 = k ∨ p ∈ d := by
  intro d
  induction d with
  | nil =>
    intro k v p hp
    have h := List.mem_singleton.mp hp
    subst h
    exact Or.inl rfl
  | cons q rest ih =>
    intro k v p hp
    obtain ⟨k', v'⟩ := q
    rw [dictSet] at hp
    by_cases h1 : k' = k
    · rw [if_pos h1] at hp
      rcases List.mem_cons.mp hp with he | hr
      · subst he
        exact Or.inl rfl
      · exact Or.inr (List.mem_cons_of_mem _ hr)
    · rw [if_neg h1] at hp
      rcases List.mem_cons.mp hp with he | hr
      · subst he
        exact Or.inr (List.mem_cons_self _ _)
      · rcases ih k v p hr with h | h
        · exact Or.inl h
        · exact Or.inr (List.mem_cons_of_mem _ h)

theorem mem_apply_services (ep : VpcEndpoint) :
    ∀ (svcs : List String) (acc : List (String × String)) (p : String × String),
      p ∈ apply_services ep acc svcs → p.1 ∈ svcs ∨ p ∈ acc := by
  intro svcs
  induction svcs with
  | nil => intro acc p hp; exact Or.inr hp
  | cons svc rest ih =>
    intro acc p hp
    rw [apply_services] at hp
    by_cases hm : strContains ep.serviceName ("." ++ svc ++ ".") = true
    · rw [if_pos hm] at hp
      rcases ih _ p hp with h | h
      · exact Or.inl (List.mem_cons_of_mem svc h)
      · rcases mem_dictSet acc svc _ p h with h2 | h2
        · refine Or.inl ?_
          rw [h2]
          exact List.mem_cons_self svc rest
        · exact Or.inr h2
    · rw [if_neg hm] at hp
      rcases ih _ p hp with h | h
      · exact Or.inl (List.mem_cons_of_mem svc h)
      · exact Or.inr h

theorem mem_service_endpoints (svcs : List String) :
    ∀ (eps : List VpcEndpoint) (acc : List (String × String))
      (p : String × String),
      p ∈ service_endpoints_go svcs acc eps → p.1 ∈ svcs ∨ p ∈ acc := by
  intro eps
  induction eps with
  | nil => intro acc p hp; exact Or.inr hp
  | cons ep rest ih =>
    intro acc p hp
    rw [service_endpoints_go] at hp
    by_cases ht : ep.vpcEndpointType = "Interface"
    · rw [if_pos ht] at hp
      rcases ih _ p hp with h | h
      · exact Or.inl h
      · exact mem_apply_services ep svcs acc p h
    · rw [if_neg ht] at hp
      exact ih _ p hp

theorem lookupKey_provision_other (cfg : Config) (name : String)
    (info : SsoProfile) (eps : List VpcEndpoint) (s : String)
    (hs : s ≠ "profile " ++ name) :
    lookupKey (provision_profile cfg name info eps) s = lookupKey cfg s := by
  unfold provision_profile
  rw [lookupKey_foldl_cfgSet_other _ _ hs _]
  rw [lookupKey_cfgSet_other _ _ _ _ hs, lookupKey_cfgSet_other _ _ _ _ hs,
    lookupKey_cfgSet_other _ _ _ _ hs, lookupKey_cfgSet_other _ _ _ _ hs,
    lookupKey_cfgSet_other _ _ _ _ hs, lookupKey_cfgSet_other _ _ _ _ hs]
  by_cases hh : hasSection cfg ("profile " ++ name) = true
  · rw [if_pos hh]
  · rw [if_neg hh]
    exact lookupKey_add_section_other cfg _ s (fun he => hs he.symm)

theorem staticKeysSet_provision (cfg : Config) (name : String)
    (info : SsoProfile) (eps : List VpcEndpoint) :
    staticKeysSet (provision_profile cfg name info eps) name info := by
  unfold provision_profile staticKeysSet
  have hbase : ∃ sec0, lookupKey
      (if hasSection cfg ("profile " ++ name) = true then cfg
       else add_section cfg ("profile " ++ name)) ("profile " ++ name) =
        some sec0 := by
    by_cases hh : hasSection cfg ("profile " ++ name) = true
    · rw [if_pos hh]
      rw [hasSection_eq_isSome] at hh
      exact Option.isSome_iff_exists.mp hh
    · rw [if_neg hh]
      refine ⟨[], lookupKey_add_section_self_none cfg _ ?_⟩
      rw [hasSection_eq_isSome] at hh
      rcases hx : lookupKey cfg ("profile " ++ name) with _ | y
      · rfl
      · rw [hx] at hh
        simp at hh
  obtain ⟨sec0, hsec0⟩ := hbase
  have h1 := lookupKey_cfgSet_self_some ("profile " ++ name) "sso_start_url"
    info.sso_start_url _ _ hsec0
  have h2 := lookupKey_cfgSet_self_some ("profile " ++ name) "sso_region"
    info.sso_region _ _ h1
  have h3 := lookupKey_cfgSet_self_some ("profile " ++ name) "sso_account_id"
    info.sso_account_id _ _ h2
  have h4 := lookupKey_cfgSet_self_some ("profile " ++ name) "sso_role_name"
    info.sso_role_name _ _ h3
  have h5 := lookupKey_cfgSet_self_some ("profile " ++ name) "region"
    info.region _ _ h4
  have h6 := lookupKey_cfgSet_self_some ("profile " ++ name) "output" "json" _ _ h5
  have hl : ∀ p ∈ service_endpoints eps services, p.1 ∈ services := by
    intro p hp
    rcases mem_service_endpoints services eps [] p hp with h | h
    · exact h
    · exact absurd h (List.not_mem_nil p)
  obtain ⟨sec', hsec', hpres⟩ :=
    lookupKey_foldl_cfgSet_self ("profile " ++ name)
      (fun p => "\n    endpoint_url = https://" ++ p.2)
      (service_endpoints eps services) _ _ h6 hl
  refine ⟨sec', hsec', ?_, ?_, ?_, ?_, ?_, ?_⟩
  · rw [hpres _ (by decide), lookupKey_dictSet, if_neg (by decide),
      lookupKey_dictSet, if_neg (by decide), lookupKey_dictSet, if_neg (by decide),
      lookupKey_dictSet, if_neg (by decide), lookupKey_dictSet, if_neg (by decide),
      lookupKey_dictSet, if_pos rfl]
  · rw [hpres _ (by decide), lookupKey_dictSet, if_neg (by decide),
      lookupKey_dictSet, if_neg (by decide), lookupKey_dictSet, if_neg (by decide),
      lookupKey_dictSet, if_neg (by decide), lookupKey_dictSet, if_pos rfl]
  · rw [hpres _ (by decide), lookupKey_dictSet, if_neg (by decide),
      lookupKey_dictSet, if_neg (by decide), lookupKey_dictSet, if_neg (by decide),
      lookupKey_dictSet, if_pos rfl]
  · rw [hpres _ (by decide), lookupKey_dictSet, if_neg (by decide),
      lookupKey_dictSet, if_neg (by decide), lookupKey_dictSet, if_pos rfl]
  · rw [hpres _ (by decide), lookupKey_dictSet, if_neg (by decide),
      lookupKey_dictSet, if_pos rfl]
  · rw [hpres _ (by decide), lookupKey_dictSet, if_pos rfl]

theorem staticKeysSet_provision_preserve (cfg : Config) (p q : String)
    (infoF : String → SsoProfile) (eps : List VpcEndpoint)
    (h : staticKeysSet cfg p (infoF p)) :
    staticKeysSet (provision_profile cfg q (infoF q) eps) p (infoF p) := by
  by_cases hpq : q = p
  · subst hpq
    exact staticKeysSet_provision cfg q (infoF q) eps
  · have hneq : ("profile " ++ p) ≠ ("profile " ++ q) := by
      intro he
      apply hpq
      have h2 : ("profile " ++ p).data = ("profile " ++ q).data :=
        congrArg String.data he
      rw [String.data_append, String.data_append] at h2
      exact (String.ext (List.append_cancel_left h2)).symm
    obtain ⟨sec, hsec, hrest⟩ := h
    refine ⟨sec, ?_, hrest⟩
    rw [lookupKey_provision_other cfg q (infoF q) eps _ hneq]
    exact hsec

theorem staticKeysSet_run (infoF : String → SsoProfile)
    (epsF : String → List VpcEndpoint) (p : String) :
    ∀ (names : List String) (cfg : Config),
      staticKeysSet cfg p (infoF p) →
      staticKeysSet (run_provisioner cfg names infoF epsF) p (infoF p) := by
  intro names
  induction names with
  | nil => intro cfg h; exact h
  | cons q rest ih =>
    intro cfg h
    show staticKeysSet
      (run_provisioner (provision_profile cfg q (infoF q) (epsF q)) rest infoF epsF)
      p (infoF p)
    exact ih _ (staticKeysSet_provision_preserve cfg p q infoF (epsF q) h)

theorem staticKeysSet_run_mem (infoF : String → SsoProfile)
    (epsF : String → List VpcEndpoint) :
    ∀ (names : List String) (cfg : Config) (p : String),
      p ∈ names →
      staticKeysSet (run_provisioner cfg names infoF epsF) p (infoF p) := by
  intro names
  induction names with
  | nil => intro cfg p hp; exact absurd hp (List.not_mem_nil p)
  | cons q rest ih =>
    intro cfg p hp
    show staticKeysSet
      (run_provisioner (provision_profile cfg q (infoF q) (epsF q)) rest infoF epsF)
      p (infoF p)
    rcases List.mem_cons.mp hp with he | hr
    · subst he
      exact staticKeysSet_run infoF epsF p rest _
        (staticKeysSet_provision cfg p (infoF p) (epsF p))
    · exact ih _ p hr

theorem lookupKey_run_other (infoF : String → SsoProfile)
    (epsF : String → List VpcEndpoint) (s : String) :
    ∀ (names : List String) (cfg : Config),
      (∀ p ∈ names, s ≠ "profile " ++ p) →
      lookupKey (run_provisioner cfg names infoF epsF) s = lookupKey cfg s := by
  intro names
  induction names with
  | nil => intro cfg _; rfl
  | cons q rest ih =>
    intro cfg hs
    show lookupKey
      (run_provisioner (provision_profile cfg q (infoF q) (epsF q)) rest infoF epsF)
      s = lookupKey cfg s
    rw [ih _ (fun p hp => hs p (List.mem_cons_of_mem q hp))]
    exact lookupKey_provision_other cfg q (infoF q) (epsF q) s
      (hs q (List.mem_cons_self q rest))

/-- C9.  After a run: every section whose name is not `"profile " + p` for a
profile `p` of the static list keeps exactly its previous contents, and for
every profile of the list the section named for it exists with the six
static settings (federation portal URL and region, account id, role name,
region, output format) at that profile's static values, whatever the
pre-existing configuration held for those keys. -/
theorem provisioner_config_spec (cfg : Config) (names : List String)
    (infoF : String → SsoProfile) (epsF : String → List VpcEndpoint) :
    (∀ s, (∀ p ∈ names, s ≠ "profile " ++ p) →
      lookupKey (run_provisioner cfg names infoF epsF) s = lookupKey cfg s) ∧
    (∀ p ∈ names,
      staticKeysSet (run_provisioner cfg names infoF epsF) p (infoF p)) := by
  constructor
  · intro s hs
    exact lookupKey_run_other infoF epsF s names cfg hs
  · intro p hp
    exact staticKeysSet_run_mem infoF epsF names cfg p hp

/-- Witness for C9: one profile, one unrelated pre-existing section; the
unrelated section is untouched and the profile's section carries the six
static settings. -/
theorem provisioner_config_spec_witness :
    (∀ p ∈ ["prod"], "keep" ≠ "profile " ++ p) ∧
    lookupKey (run_provisioner cfgW ["prod"] (fun _ => infoW) (fun _ => [])) "keep" =
      lookupKey cfgW "keep" ∧
    staticKeysSet (run_provisioner cfgW ["prod"] (fun _ => infoW) (fun _ => []))
      "prod" infoW :=
  ⟨by decide,
   (provisioner_config_spec cfgW ["prod"] (fun _ => infoW) (fun _ => [])).1 "keep"
     (by decide),
   (provisioner_config_spec cfgW ["prod"] (fun _ => infoW) (fun _ => [])).2 "prod"
     (by decide)⟩
